import Mathlib

/-!
Verification of the handlr association-table core against its specification:

* the MIME alias canonicalization merge (`unalias_mime_map`,
  `src/apps/canonical.rs`),
* the `mimeapps.list` data model, parser and serializer (`MimeApps`,
  `src/apps/user.rs`),
* handler resolution (`Handler::resolve`, `src/common/handler.rs`).

Modelling conventions.  MIME identifiers and handler identifiers are `String`
(the `type/subtype` essence form; the Rust `Mime` order is lexicographic on
that form, which is `String`'s order here).  A Rust `HashMap<K, V>` is
modelled as an association list `List (K × V)`: a concrete list fixes one
iteration order, claims about arbitrary iteration order quantify over
permutations of the list, and `HashMap` equality is extensional (equal
lookups at every key).  External collaborators (the installed-application
registry, `Mime::from_str` validity) are abstracted as boolean predicates
passed in as parameters, exactly where the Rust code calls out to them.
-/

/-- Association-list lookup, modelling `HashMap::get`. -/
def alLookup {α : Type} (k : String) : List (String × α) → Option α
  | [] => none
  | p :: rest => if k = p.1 then some p.2 else alLookup k rest

/-- Association-list insert-or-overwrite, modelling `HashMap::insert` (and
`Entry::insert` on an occupied entry). -/
def alInsert {α : Type} (k : String) (v : α) : List (String × α) → List (String × α)
  | [] => [(k, v)]
  | p :: rest => if k = p.1 then (k, v) :: rest else p :: alInsert k v rest

/-- Association-list key removal, modelling `HashMap::remove`. -/
def alErase {α : Type} (k : String) : List (String × α) → List (String × α)
  | [] => []
  | p :: rest => if k = p.1 then rest else p :: alErase k rest

/-- The system MIME alias database (`xdg_mime::SharedMimeInfo`), abstracted to
its observable content: `(alias, canonical)` rows, with
`unalias_mime_type` being lookup of the first matching row. -/
structure AliasDb where
  aliases : List (String × String)

/-- `unalias_mime` (src/apps/canonical.rs:13): the canonical form recorded by
the database, or `mime` itself when the database records none. -/
def unalias_mime (db : AliasDb) (mime : String) : String :=
  match alLookup mime db.aliases with
  | some canonical => canonical
  | none => mime

/-- One iteration of the loop body of `unalias_mime_map`
(src/apps/canonical.rs:82-112).  The accumulator maps each canonical MIME
to `(actual source key, value)`; the source key tags whether the slot was
filled from a canonical-keyed or an alias-keyed entry. -/
def unaliasStep {α : Type} (db : AliasDb) (canonicalMap : List (String × String × α))
    (entry : String × α) : List (String × String × α) :=
  let mime := entry.1
  let v := entry.2
  let canonical_mime := unalias_mime db mime
  if mime = canonical_mime then
    -- canonical mime wins. overwrite and discard the old value.
    alInsert canonical_mime (canonical_mime, v) canonicalMap
  else
    -- mime is an alias.
    match alLookup canonical_mime canonicalMap with
    | none => alInsert canonical_mime (mime, v) canonicalMap
    | some old =>
      if old.1 = canonical_mime then
        -- if slot contains canonical mime, do nothing.
        canonicalMap
      else if mime < old.1 then
        -- if we are alphabetically before the stored alias, overwrite.
        alInsert canonical_mime (mime, v) canonicalMap
      else
        canonicalMap

/-- `unalias_mime_map` (src/apps/canonical.rs:23-118): fold the entries into a
canonically-keyed map, then drop the source-key tag. -/
def unalias_mime_map {α : Type} (db : AliasDb) (mime_map : List (String × α)) :
    List (String × α) :=
  (mime_map.foldl (unaliasStep db) []).map (fun p => (p.1, p.2.2))

/-- The action of one `unalias_mime_map` iteration on the single slot of the
accumulator keyed by `c` (all other slots are untouched by an entry whose
canonical form is not `c`). -/
def bestStep {α : Type} (db : AliasDb) (c : String) (best : Option (String × α))
    (p : String × α) : Option (String × α) :=
  if unalias_mime db p.1 = c then
    if p.1 = unalias_mime db p.1 then
      some (unalias_mime db p.1, p.2)
    else
      match best with
      | none => some p
      | some q => if q.1 = c then some q else if p.1 < q.1 then some p else some q
  else best

theorem alLookup_alInsert {α : Type} (k c : String) (v : α) (l : List (String × α)) :
    alLookup c (alInsert k v l) = if c = k then some v else alLookup c l := by
  induction l with
  | nil => simp [alInsert, alLookup]
  | cons p rest ih =>
    unfold alInsert
    by_cases hk : k = p.1
    · simp only [if_pos hk, alLookup]
      by_cases hc : c = k
      · simp [hc]
      · have hcp : ¬ c = p.1 := fun h => hc (h.trans hk.symm)
        simp [hc, hcp]
    · simp only [if_neg hk, alLookup]
      by_cases hc : c = p.1
      · have hck : ¬ c = k := fun h => hk (h ▸ hc)
        have hpk : ¬ p.1 = k := fun h => hk h.symm
        simp [hc, hck, hpk]
      · simp [hc, ih]

theorem alLookup_map_snd {α : Type} (c : String) (l : List (String × String × α)) :
    alLookup c (l.map (fun p => (p.1, p.2.2))) = (alLookup c l).map (fun q => q.2) := by
  induction l with
  | nil => simp [alLookup]
  | cons p rest ih =>
    by_cases hc : c = p.1 <;> simp [alLookup, hc, ih]

theorem alLookup_unaliasStep {α : Type} (db : AliasDb) (c : String)
    (acc : List (String × String × α)) (p : String × α) :
    alLookup c (unaliasStep db acc p) = bestStep db c (alLookup c acc) p := by
  unfold unaliasStep bestStep
  by_cases hcan : p.1 = unalias_mime db p.1
  · by_cases hc : unalias_mime db p.1 = c
    · simp only [if_pos hcan, if_pos hc, if_pos (hcan)]
      rw [alLookup_alInsert]
      simp [hc]
    · simp only [if_pos hcan, if_neg hc]
      rw [alLookup_alInsert]
      have : ¬ c = unalias_mime db p.1 := fun h => hc h.symm
      simp [this]
  · simp only [if_neg hcan]
    by_cases hc : unalias_mime db p.1 = c
    · subst hc
      cases hlook : alLookup (unalias_mime db p.1) acc with
      | none =>
        simp only [hlook]
        rw [alLookup_alInsert]
        simp [if_neg hcan]
      | some q =>
        simp only [hlook]
        by_cases hq : q.1 = unalias_mime db p.1
        · simp [hq, hlook, if_neg hcan]
        · by_cases hlt : p.1 < q.1
          · simp only [if_neg hq, if_pos hlt, if_neg hcan]
            rw [alLookup_alInsert]
            simp [hq, hlt]
          · simp [hq, hlt, hlook, if_neg hcan]
    · cases hlook : alLookup (unalias_mime db p.1) acc with
      | none =>
        simp only [hlook, if_neg hc]
        rw [alLookup_alInsert]
        have : ¬ c = unalias_mime db p.1 := fun h => hc h.symm
        simp [this]
      | some q =>
        by_cases hq : q.1 = unalias_mime db p.1
        · simp [hlook, hq, hc]
        · by_cases hlt : p.1 < q.1
          · simp only [hlook, if_neg hq, if_pos hlt, if_neg hc]
            rw [alLookup_alInsert]
            have : ¬ c = unalias_mime db p.1 := fun h => hc h.symm
            simp [this]
          · simp [hlook, hq, hlt, hc]

theorem alLookup_foldl_unaliasStep {α : Type} (db : AliasDb) (c : String)
    (l : List (String × α)) (acc : List (String × String × α)) :
    alLookup c (l.foldl (unaliasStep db) acc) =
      l.foldl (bestStep db c) (alLookup c acc) := by
  induction l generalizing acc with
  | nil => rfl
  | cons p rest ih =>
    simp only [List.foldl_cons]
    rw [ih, alLookup_unaliasStep]

/-- Reduce a lookup in the merge result to a single-slot fold. -/
theorem alLookup_unalias_mime_map {α : Type} (db : AliasDb) (c : String)
    (l : List (String × α)) :
    alLookup c (unalias_mime_map db l) =
      (l.foldl (bestStep db c) none).map (fun q => q.2) := by
  unfold unalias_mime_map
  rw [alLookup_map_snd, alLookup_foldl_unaliasStep]
  rfl

theorem bestStep_of_not_canonical {α : Type} {db : AliasDb} {c : String} {p : String × α}
    (h : ¬ unalias_mime db p.1 = c) (b : Option (String × α)) :
    bestStep db c b p = b := by
  unfold bestStep
  rw [if_neg h]

theorem bestStep_of_canonical_key {α : Type} {db : AliasDb} {c : String} {p : String × α}
    (h : unalias_mime db p.1 = c) (h2 : p.1 = unalias_mime db p.1)
    (b : Option (String × α)) :
    bestStep db c b p = some (unalias_mime db p.1, p.2) := by
  unfold bestStep
  rw [if_pos h, if_pos h2]

theorem bestStep_alias_of_none {α : Type} {db : AliasDb} {c : String} {p : String × α}
    (h : unalias_mime db p.1 = c) (h2 : ¬ p.1 = unalias_mime db p.1) :
    bestStep db c none p = some p := by
  unfold bestStep
  rw [if_pos h, if_neg h2]

theorem bestStep_alias_of_some {α : Type} {db : AliasDb} {c : String} {p : String × α}
    (h : unalias_mime db p.1 = c) (h2 : ¬ p.1 = unalias_mime db p.1) (q : String × α) :
    bestStep db c (some q) p =
      if q.1 = c then some q else if p.1 < q.1 then some p else some q := by
  unfold bestStep
  rw [if_pos h, if_neg h2]

theorem bestStep_comm {α : Type} (db : AliasDb) (c : String) {x y : String × α}
    (hxy : x.1 = y.1 → x = y) (z : Option (String × α)) :
    bestStep db c (bestStep db c z x) y = bestStep db c (bestStep db c z y) x := by
  by_cases heq : x = y
  · rw [heq]
  have hne : x.1 ≠ y.1 := fun h => heq (hxy h)
  by_cases hx : unalias_mime db x.1 = c
  · by_cases hy : unalias_mime db y.1 = c
    · by_cases hxc : x.1 = unalias_mime db x.1
      · by_cases hyc : y.1 = unalias_mime db y.1
        · exact absurd ((hxc.trans hx).trans ((hyc.trans hy).symm)) hne
        · -- x canonical-keyed, y alias-keyed: both orders end at the canonical slot value
          rw [bestStep_of_canonical_key hx hxc, bestStep_of_canonical_key hx hxc,
            bestStep_alias_of_some hy hyc]
          have hq1 : (unalias_mime db x.1, x.2).1 = c := hx
          rw [if_pos hq1]
      · by_cases hyc : y.1 = unalias_mime db y.1
        · rw [bestStep_of_canonical_key hy hyc, bestStep_of_canonical_key hy hyc,
            bestStep_alias_of_some hx hxc]
          have hq1 : (unalias_mime db y.1, y.2).1 = c := hy
          rw [if_pos hq1]
        · -- both alias-keyed
          have hxnc : ¬ x.1 = c := fun h => hxc (h.trans hx.symm)
          have hync : ¬ y.1 = c := fun h => hyc (h.trans hy.symm)
          cases z with
          | none =>
            rw [bestStep_alias_of_none hx hxc, bestStep_alias_of_none hy hyc,
              bestStep_alias_of_some hy hyc, bestStep_alias_of_some hx hxc,
              if_neg hxnc, if_neg hync]
            rcases lt_trichotomy x.1 y.1 with hlt | hmid | hgt
            · rw [if_neg (asymm hlt), if_pos hlt]
            · exact absurd hmid hne
            · rw [if_pos hgt, if_neg (asymm hgt)]
          | some q =>
            by_cases hqc : q.1 = c
            · rw [bestStep_alias_of_some hx hxc, bestStep_alias_of_some hy hyc,
                if_pos hqc, if_pos hqc, bestStep_alias_of_some hy hyc,
                bestStep_alias_of_some hx hxc, if_pos hqc, if_pos hqc]
            · rw [bestStep_alias_of_some hx hxc, bestStep_alias_of_some hy hyc,
                if_neg hqc, if_neg hqc]
              by_cases hxq : x.1 < q.1
              · by_cases hyq : y.1 < q.1
                · rw [if_pos hxq, if_pos hyq, bestStep_alias_of_some hy hyc,
                    bestStep_alias_of_some hx hxc, if_neg hxnc, if_neg hync]
                  rcases lt_trichotomy x.1 y.1 with hlt | hmid | hgt
                  · rw [if_neg (asymm hlt), if_pos hlt]
                  · exact absurd hmid hne
                  · rw [if_pos hgt, if_neg (asymm hgt)]
                · rw [if_pos hxq, if_neg hyq, bestStep_alias_of_some hy hyc,
                    bestStep_alias_of_some hx hxc, if_neg hxnc, if_neg hqc,
                    if_pos hxq, if_neg (fun h => hyq (h.trans hxq))]
              · by_cases hyq : y.1 < q.1
                · rw [if_neg hxq, if_pos hyq, bestStep_alias_of_some hy hyc,
                    bestStep_alias_of_some hx hxc, if_neg hync, if_neg hqc,
                    if_pos hyq, if_neg (fun h => hxq (h.trans hyq))]
                · rw [if_neg hxq, if_neg hyq, bestStep_alias_of_some hy hyc,
                    bestStep_alias_of_some hx hxc, if_neg hqc, if_neg hqc,
                    if_neg hxq, if_neg hyq]
    · rw [bestStep_of_not_canonical hy, bestStep_of_not_canonical hy]
  · rw [bestStep_of_not_canonical hx, bestStep_of_not_canonical hx]

/-- Claim C1: merging any two iteration orders (permutations) of the same
entries with unique keys through `unalias_mime_map` yields the identical
mapping (equal lookup at every canonical key). -/
theorem unalias_mime_map_order_independent {α : Type} (db : AliasDb)
    {l1 l2 : List (String × α)} (hperm : l1.Perm l2)
    (hnd : (l1.map Prod.fst).Nodup) :
    ∀ c, alLookup c (unalias_mime_map db l1) = alLookup c (unalias_mime_map db l2) := by
  intro c
  rw [alLookup_unalias_mime_map, alLookup_unalias_mime_map]
  have comm : ∀ x ∈ l1, ∀ y ∈ l1, ∀ z,
      bestStep db c (bestStep db c z x) y = bestStep db c (bestStep db c z y) x := by
    intro x hxmem y hymem z
    exact bestStep_comm db c
      (fun h => List.inj_on_of_nodup_map hnd hxmem hymem h) z
  rw [hperm.foldl_eq' comm none]

theorem alLookup_eq_none_forall {α : Type} {k : String} {l : List (String × α)}
    (h : alLookup k l = none) : ∀ x ∈ l, ¬ x.1 = k := by
  induction l with
  | nil => intro x hx; cases hx
  | cons p rest ih =>
    unfold alLookup at h
    by_cases hk : k = p.1
    · rw [if_pos hk] at h; cases h
    · rw [if_neg hk] at h
      intro x hx
      cases hx with
      | head => exact fun hh => hk hh.symm
      | tail _ hmem => exact ih h x hmem

theorem mem_of_alLookup_eq_some {α : Type} {k : String} {v : α} {l : List (String × α)}
    (h : alLookup k l = some v) : (k, v) ∈ l := by
  induction l with
  | nil => cases h
  | cons p rest ih =>
    unfold alLookup at h
    by_cases hk : k = p.1
    · rw [if_pos hk] at h
      have hv : p.2 = v := Option.some.inj h
      have : p = (k, v) := by
        cases p
        simp_all
      rw [← this]
      exact List.mem_cons_self _ _
    · rw [if_neg hk] at h
      exact List.mem_cons_of_mem _ (ih h)

theorem alLookup_eq_some_of_mem {α : Type} {k : String} {v : α} {l : List (String × α)}
    (hmem : (k, v) ∈ l) (hnd : (l.map Prod.fst).Nodup) : alLookup k l = some v := by
  induction l with
  | nil => cases hmem
  | cons p rest ih =>
    rw [List.map_cons, List.nodup_cons] at hnd
    cases hmem with
    | head =>
      unfold alLookup
      rw [if_pos rfl]
    | tail _ hmem =>
      have hk : ¬ k = p.1 := by
        intro hh
        exact hnd.1 (hh ▸ (List.mem_map_of_mem Prod.fst hmem))
      unfold alLookup
      rw [if_neg hk]
      exact ih hmem hnd.2

theorem foldl_bestStep_keep_canonical {α : Type} (db : AliasDb) (c : String) (v : α) :
    ∀ (l : List (String × α)), (∀ x ∈ l, x.1 = c → x = (c, v)) →
      l.foldl (bestStep db c) (some (c, v)) = some (c, v) := by
  intro l
  induction l with
  | nil => intro _; rfl
  | cons p rest ih =>
    intro h
    rw [List.foldl_cons]
    have hrest : ∀ x ∈ rest, x.1 = c → x = (c, v) :=
      fun x hx => h x (List.mem_cons_of_mem _ hx)
    by_cases hpc : unalias_mime db p.1 = c
    · by_cases hpk : p.1 = unalias_mime db p.1
      · have hp : p = (c, v) := h p (List.mem_cons_self _ _) (hpk.trans hpc)
        rw [bestStep_of_canonical_key hpc hpk]
        have : (unalias_mime db p.1, p.2) = (c, v) := by
          rw [hpc, hp]
        rw [this]
        exact ih hrest
      · rw [bestStep_alias_of_some hpc hpk, if_pos (rfl : (c, v).1 = c)]
        exact ih hrest
    · rw [bestStep_of_not_canonical hpc]
      exact ih hrest

theorem foldl_bestStep_canonical_mem {α : Type} (db : AliasDb) (c : String) (v : α) :
    ∀ (l : List (String × α)) (b : Option (String × α)), (c, v) ∈ l →
      unalias_mime db c = c → (∀ x ∈ l, x.1 = c → x = (c, v)) →
      l.foldl (bestStep db c) b = some (c, v) := by
  intro l
  induction l with
  | nil => intro b hmem; cases hmem
  | cons p rest ih =>
    intro b hmem hcan h
    rw [List.foldl_cons]
    have hrest : ∀ x ∈ rest, x.1 = c → x = (c, v) :=
      fun x hx => h x (List.mem_cons_of_mem _ hx)
    by_cases hp : p = (c, v)
    · have hpc : unalias_mime db p.1 = c := by rw [hp]; exact hcan
      have hpk : p.1 = unalias_mime db p.1 := by rw [hp]; exact hcan.symm
      rw [bestStep_of_canonical_key hpc hpk]
      have : (unalias_mime db p.1, p.2) = (c, v) := by
        rw [hpc, hp]
      rw [this]
      exact foldl_bestStep_keep_canonical db c v rest hrest
    · have hmem' : (c, v) ∈ rest := by
        cases hmem with
        | head => exact absurd rfl hp
        | tail _ hm => exact hm
      exact ih _ hmem' hcan hrest

theorem foldl_bestStep_min_alias {α : Type} (db : AliasDb) (c a : String) (v : α) :
    ∀ (l : List (String × α)) (b : Option (String × α)),
      (∀ x ∈ l, ¬ x.1 = c) →
      (∀ x ∈ l, unalias_mime db x.1 = c → a ≤ x.1) →
      (∀ x ∈ l, x.1 = a → x = (a, v)) →
      unalias_mime db a = c →
      ((a, v) ∈ l ∨ b = some (a, v)) →
      (b = none ∨ ∃ q, b = some q ∧ ¬ q.1 = c ∧ (a < q.1 ∨ q = (a, v))) →
      l.foldl (bestStep db c) b = some (a, v) := by
  intro l
  induction l with
  | nil =>
    intro b _ _ _ _ hreach _
    cases hreach with
    | inl hmem => cases hmem
    | inr hb => rw [hb]; rfl
  | cons p rest ih =>
    intro b h1 h2 h3 hcan hreach hb
    rw [List.foldl_cons]
    have h1r : ∀ x ∈ rest, ¬ x.1 = c := fun x hx => h1 x (List.mem_cons_of_mem _ hx)
    have h2r : ∀ x ∈ rest, unalias_mime db x.1 = c → a ≤ x.1 :=
      fun x hx => h2 x (List.mem_cons_of_mem _ hx)
    have h3r : ∀ x ∈ rest, x.1 = a → x = (a, v) :=
      fun x hx => h3 x (List.mem_cons_of_mem _ hx)
    by_cases hpc : unalias_mime db p.1 = c
    · have hpnc : ¬ p.1 = c := h1 p (List.mem_cons_self _ _)
      have hpk : ¬ p.1 = unalias_mime db p.1 := fun h => hpnc (h.trans hpc)
      have hap : a ≤ p.1 := h2 p (List.mem_cons_self _ _) hpc
      have hnewq : ¬ p.1 = c ∧ (a < p.1 ∨ p = (a, v)) := by
        refine ⟨hpnc, ?_⟩
        by_cases hpa : p.1 = a
        · exact Or.inr (h3 p (List.mem_cons_self _ _) hpa)
        · exact Or.inl (lt_of_le_of_ne hap (fun h => hpa h.symm))
      cases hb with
      | inl hbnone =>
        rw [hbnone, bestStep_alias_of_none hpc hpk]
        by_cases hp : p = (a, v)
        · exact ih (some p) h1r h2r h3r hcan (Or.inr (by rw [hp]))
            (Or.inr ⟨p, rfl, hnewq⟩)
        · have hmem' : (a, v) ∈ rest := by
            cases hreach with
            | inl hmem =>
              cases hmem with
              | head => exact absurd rfl hp
              | tail _ hm => exact hm
            | inr hbav => rw [hbnone] at hbav; cases hbav
          exact ih (some p) h1r h2r h3r hcan (Or.inl hmem') (Or.inr ⟨p, rfl, hnewq⟩)
      | inr hbsome =>
        obtain ⟨q, hbq, hqc, hqdisj⟩ := hbsome
        rw [hbq, bestStep_alias_of_some hpc hpk, if_neg hqc]
        cases hqdisj with
        | inr hqav =>
          have : ¬ p.1 < q.1 := by
            rw [hqav]
            exact not_lt.mpr hap
          rw [if_neg this]
          exact ih (some q) h1r h2r h3r hcan (Or.inr (by rw [hqav]))
            (Or.inr ⟨q, rfl, hqc, Or.inr hqav⟩)
        | inl haq =>
          have hreach' : (a, v) ∈ p :: rest := by
            cases hreach with
            | inl hmem => exact hmem
            | inr hbav =>
              rw [hbq] at hbav
              have : q = (a, v) := Option.some.inj hbav
              rw [this] at haq
              exact absurd haq (lt_irrefl a)
          by_cases hpq : p.1 < q.1
          · rw [if_pos hpq]
            by_cases hp : p = (a, v)
            · exact ih (some p) h1r h2r h3r hcan (Or.inr (by rw [hp]))
                (Or.inr ⟨p, rfl, hnewq⟩)
            · have hmem' : (a, v) ∈ rest := by
                cases hreach' with
                | head => exact absurd rfl hp
                | tail _ hm => exact hm
              exact ih (some p) h1r h2r h3r hcan (Or.inl hmem')
                (Or.inr ⟨p, rfl, hnewq⟩)
          · rw [if_neg hpq]
            have hp : ¬ p = (a, v) := by
              intro hpav
              rw [hpav] at hpq
              exact hpq haq
            have hmem' : (a, v) ∈ rest := by
              cases hreach' with
              | head => exact absurd rfl hp
              | tail _ hm => exact hm
            exact ih (some q) h1r h2r h3r hcan (Or.inl hmem')
              (Or.inr ⟨q, rfl, hqc, Or.inl haq⟩)
    · rw [bestStep_of_not_canonical hpc]
      have hreach' : (a, v) ∈ rest ∨ b = some (a, v) := by
        cases hreach with
        | inl hmem =>
          cases hmem with
          | head => exact absurd hcan hpc
          | tail _ hm => exact Or.inl hm
        | inr hbav => exact Or.inr hbav
      exact ih b h1r h2r h3r hcan hreach' hb

theorem foldl_bestStep_of_no_match {α : Type} (db : AliasDb) (c : String) :
    ∀ (l : List (String × α)) (b : Option (String × α)),
      (∀ x ∈ l, ¬ unalias_mime db x.1 = c) → l.foldl (bestStep db c) b = b := by
  intro l
  induction l with
  | nil => intro b _; rfl
  | cons p rest ih =>
    intro b h
    rw [List.foldl_cons, bestStep_of_not_canonical (h p (List.mem_cons_self _ _))]
    exact ih b (fun x hx => h x (List.mem_cons_of_mem _ hx))

/-- Claim C2: when the input contains an entry keyed by the canonical
identifier `c` itself (`unalias_mime db c = c`), the merge result at `c` is
that entry's value, for every iteration order (the input list is arbitrary). -/
theorem unalias_mime_map_canonical_precedence {α : Type} (db : AliasDb)
    {l : List (String × α)} {c : String} {v : α}
    (hnd : (l.map Prod.fst).Nodup) (hmem : (c, v) ∈ l)
    (hcan : unalias_mime db c = c) :
    alLookup c (unalias_mime_map db l) = some v := by
  rw [alLookup_unalias_mime_map]
  have huniq : ∀ x ∈ l, x.1 = c → x = (c, v) := fun x hx h =>
    List.inj_on_of_nodup_map hnd hx hmem h
  rw [foldl_bestStep_canonical_mem db c v l none hmem hcan huniq]
  rfl

/-- Claim C3: when no entry is keyed by `c` itself and `(a, v)` is the entry
whose key is the lexicographically smallest among those canonicalizing to `c`,
the merge result at `c` is `v`, for every iteration order. -/
theorem unalias_mime_map_min_alias {α : Type} (db : AliasDb)
    {l : List (String × α)} {c a : String} {v : α}
    (hnd : (l.map Prod.fst).Nodup)
    (hnocan : ∀ x ∈ l, ¬ x.1 = c)
    (hmem : (a, v) ∈ l)
    (halias : unalias_mime db a = c)
    (hmin : ∀ x ∈ l, unalias_mime db x.1 = c → a ≤ x.1) :
    alLookup c (unalias_mime_map db l) = some v := by
  rw [alLookup_unalias_mime_map]
  have huniq : ∀ x ∈ l, x.1 = a → x = (a, v) := fun x hx h =>
    List.inj_on_of_nodup_map hnd hx hmem h
  rw [foldl_bestStep_min_alias db c a v l none hnocan hmin huniq halias
    (Or.inl hmem) (Or.inl rfl)]
  rfl

/-- Claim C6: a mapping all of whose keys are already canonical is returned
unchanged by the merge (same lookup at every key). -/
theorem unalias_mime_map_idempotent {α : Type} (db : AliasDb)
    {l : List (String × α)}
    (hnd : (l.map Prod.fst).Nodup)
    (hcanon : ∀ x ∈ l, unalias_mime db x.1 = x.1) :
    ∀ k, alLookup k (unalias_mime_map db l) = alLookup k l := by
  intro k
  cases h : alLookup k l with
  | none =>
    rw [alLookup_unalias_mime_map]
    have hnomatch : ∀ x ∈ l, ¬ unalias_mime db x.1 = k := by
      intro x hx hh
      exact alLookup_eq_none_forall h x hx ((hcanon x hx).symm.trans hh)
    rw [foldl_bestStep_of_no_match db k l none hnomatch]
    rfl
  | some v =>
    have hmem : (k, v) ∈ l := mem_of_alLookup_eq_some h
    have hcan : unalias_mime db k = k := hcanon (k, v) hmem
    have huniq : ∀ x ∈ l, x.1 = k → x = (k, v) := fun x hx hh =>
      List.inj_on_of_nodup_map hnd hx hmem hh
    rw [alLookup_unalias_mime_map,
      foldl_bestStep_canonical_mem db k v l none hmem hcan huniq]
    rfl

/-- A small concrete alias database: `audio/x-flac` is an alias of
`audio/flac` (a real row of the shared MIME database). -/
def dbFlac : AliasDb := ⟨[("audio/x-flac", "audio/flac")]⟩

/-- Two aliases of the same canonical type, for tie-break scenarios. -/
def dbTwoAliases : AliasDb := ⟨[("audio/a", "audio/c"), ("audio/b", "audio/c")]⟩

theorem unalias_mime_map_order_independent_witness :
    ([("audio/x-flac", 1), ("audio/flac", 2)] : List (String × Nat)).Perm
        [("audio/flac", 2), ("audio/x-flac", 1)] ∧
    (([("audio/x-flac", 1), ("audio/flac", 2)] : List (String × Nat)).map Prod.fst).Nodup ∧
    alLookup "audio/flac"
        (unalias_mime_map dbFlac [("audio/x-flac", 1), ("audio/flac", 2)]) =
      alLookup "audio/flac"
        (unalias_mime_map dbFlac [("audio/flac", 2), ("audio/x-flac", 1)]) :=
  ⟨by decide, by decide,
    unalias_mime_map_order_independent dbFlac (by decide) (by decide) "audio/flac"⟩

theorem unalias_mime_map_canonical_precedence_witness :
    (([("audio/x-flac", 1), ("audio/flac", 2)] : List (String × Nat)).map Prod.fst).Nodup ∧
    ("audio/flac", 2) ∈ ([("audio/x-flac", 1), ("audio/flac", 2)] : List (String × Nat)) ∧
    unalias_mime dbFlac "audio/flac" = "audio/flac" ∧
    alLookup "audio/flac"
        (unalias_mime_map dbFlac [("audio/x-flac", 1), ("audio/flac", 2)]) = some 2 :=
  ⟨by decide, by decide, by decide,
    unalias_mime_map_canonical_precedence dbFlac (by decide) (by decide) (by decide)⟩

theorem unalias_mime_map_min_alias_witness :
    (([("audio/b", 20), ("audio/a", 10)] : List (String × Nat)).map Prod.fst).Nodup ∧
    (∀ x ∈ ([("audio/b", 20), ("audio/a", 10)] : List (String × Nat)), ¬ x.1 = "audio/c") ∧
    ("audio/a", 10) ∈ ([("audio/b", 20), ("audio/a", 10)] : List (String × Nat)) ∧
    unalias_mime dbTwoAliases "audio/a" = "audio/c" ∧
    (∀ x ∈ ([("audio/b", 20), ("audio/a", 10)] : List (String × Nat)),
      unalias_mime dbTwoAliases x.1 = "audio/c" → "audio/a" ≤ x.1) ∧
    alLookup "audio/c"
        (unalias_mime_map dbTwoAliases [("audio/b", 20), ("audio/a", 10)]) = some 10 := by
  have hmin : ∀ x ∈ ([("audio/b", 20), ("audio/a", 10)] : List (String × Nat)),
      unalias_mime dbTwoAliases x.1 = "audio/c" → "audio/a" ≤ x.1 := by
    intro x hx _
    cases hx with
    | head => exact String.le_iff_toList_le.mpr (by decide)
    | tail _ hx2 =>
      cases hx2 with
      | head => exact le_refl _
      | tail _ hx3 => cases hx3
  exact ⟨by decide, by decide, by decide, by decide, hmin,
    unalias_mime_map_min_alias dbTwoAliases (by decide) (by decide) (by decide)
      (by decide) hmin⟩

theorem unalias_mime_map_idempotent_witness :
    (([("audio/flac", 1), ("text/plain", 2)] : List (String × Nat)).map Prod.fst).Nodup ∧
    (∀ x ∈ ([("audio/flac", 1), ("text/plain", 2)] : List (String × Nat)),
      unalias_mime dbFlac x.1 = x.1) ∧
    alLookup "audio/flac"
        (unalias_mime_map dbFlac [("audio/flac", 1), ("text/plain", 2)]) =
      alLookup "audio/flac" ([("audio/flac", 1), ("text/plain", 2)] : List (String × Nat)) :=
  ⟨by decide, by decide,
    unalias_mime_map_idempotent dbFlac (by decide) (by decide) "audio/flac"⟩

/-!
The `mimeapps.list` data model (`MimeApps`, src/apps/user.rs).

Handlers are modelled as `String` (the `.desktop` file name wrapped by
`Handler`).  `Handler::resolve` consults the external application registry
(`Handler::get_path`, an XDG data-dir search), abstracted as a
`getPath : String → Option String` collaborator; the parser only needs the
induced boolean `installed` test.  `Mime::from_str` validity is likewise
abstracted as a `mimeOk : String → Bool` collaborator.

The pest grammar file (`src/common/ini.pest`) is not part of the sources;
its line framing is modelled from the spec (section 4.4): a line-oriented
format where `[Name]` lines switch the current section, `key=value` lines
are properties, and other lines are ignored.  The parser below therefore
consumes a `List String` of lines, and the serializer produces one.
-/

/-- Error kinds (src/error.rs), restricted to those the modelled operations
produce. `notFound` is `Error::NotFound` (HandlerNotFound). -/
inductive Error : Type where
  | notFound : String → Error
deriving DecidableEq, Repr

/-- `Handler::resolve` (src/common/handler.rs:33-37): look the name up in the
application registry; an unresolvable name is `Error::NotFound`. -/
def Handler.resolve (getPath : String → Option String) (name : String) :
    Except Error String :=
  match getPath name with
  | none => .error (.notFound name)
  | some _ => .ok name

/-- The three association mappings of `MimeApps` (src/apps/user.rs:16-22). -/
structure MimeApps : Type where
  added_associations : List (String × List String)
  removed_associations : List (String × List String)
  default_apps : List (String × List String)
deriving DecidableEq, Repr

def MimeApps.empty : MimeApps := ⟨[], [], []⟩

/-- `MimeApps::add_handler` (src/apps/user.rs:25-30): push the handler at the
back of the default list for `mime`, creating the list if absent
(`entry(mime).or_default().push_back(handler)`). -/
def MimeApps.add_handler (apps : MimeApps) (mime : String) (handler : String) :
    MimeApps :=
  { apps with
    default_apps :=
      match alLookup mime apps.default_apps with
      | some hs => alInsert mime (hs ++ [handler]) apps.default_apps
      | none => alInsert mime [handler] apps.default_apps }

/-- `MimeApps::set_handler` (src/apps/user.rs:32-34): replace the default list
for `mime` with the singleton `[handler]`. -/
def MimeApps.set_handler (apps : MimeApps) (mime : String) (handler : String) :
    MimeApps :=
  { apps with default_apps := alInsert mime [handler] apps.default_apps }

/-- `MimeApps::remove_handler` (src/apps/user.rs:36-42): remove the default
list for `mime` if present, saving (exactly one persisted write) only when a
deletion occurred.  The returned `Nat` counts the `save()` calls performed;
filesystem failure of `save` is outside the model, so the result is always
`.ok`, matching the function's only non-IO outcome. -/
def MimeApps.remove_handler (apps : MimeApps) (mime : String) :
    Except Error (MimeApps × Nat) :=
  match alLookup mime apps.default_apps with
  | some _ => .ok ({ apps with default_apps := alErase mime apps.default_apps }, 1)
  | none => .ok (apps, 0)

/-- Rust `str::split(";")` on the character level: splits into the (possibly
empty) parts between occurrences of `c`. -/
def splitOnChar (c : Char) : List Char → List (List Char)
  | [] => [[]]
  | x :: rest =>
    match splitOnChar c rest with
    | [] => [[]]
    | part :: parts =>
      if x = c then [] :: part :: parts else (x :: part) :: parts

/-- Split a property line at its first `=` into name and value, `none` when
the line has no `=` (such a line matches no grammar rule and is ignored). -/
def splitEq : List Char → Option (List Char × List Char)
  | [] => none
  | x :: rest =>
    if x = '=' then some ([], rest)
    else (splitEq rest).map (fun nv => (x :: nv.1, nv.2))

/-- A `[Name]` section-header line, yielding `Name`
(modelled from the spec: the `ini.pest` grammar file is not in the sources;
section 4.4 describes a section-delimited line format). -/
def parseSectionName (l : List Char) : Option (List Char) :=
  match l with
  | [] => none
  | x :: rest =>
    if x = '[' then
      match rest.reverse with
      | [] => none
      | y :: revMid => if y = ']' then some revMid.reverse else none
    else none

/-- `itertools::unique()`: keep the first occurrence of each value. -/
def uniqueFirst {α : Type} [DecidableEq α] (seen : List α) : List α → List α
  | [] => []
  | x :: rest =>
    if x ∈ seen then uniqueFirst seen rest
    else x :: uniqueFirst (x :: seen) rest

/-- The handler-list pipeline of `MimeApps::read` (src/apps/user.rs:78-90):
split the value on `;`, drop empty tokens, deduplicate keeping first
occurrences, and silently drop tokens that do not resolve to an installed
application (`filter_map(|s| Handler::from_str(s).ok())`). -/
def parseHandlers (installed : String → Bool) (value : List Char) : List String :=
  ((uniqueFirst []
    (((splitOnChar ';' value).map String.mk).filter (fun s => ¬ s = ""))).filter
      installed)

/-- Insert a parsed property into the mapping selected by the current section
name (src/apps/user.rs:92-110); properties of unrecognized sections are
ignored. -/
def sectionInsert (cur : String) (k : String) (hs : List String)
    (conf : MimeApps) : MimeApps :=
  if cur = "Added Associations" then
    { conf with added_associations := alInsert k hs conf.added_associations }
  else if cur = "Removed Associations" then
    { conf with removed_associations := alInsert k hs conf.removed_associations }
  else if cur = "Default Applications" then
    { conf with default_apps := alInsert k hs conf.default_apps }
  else conf

/-- Parser state: the current section name and the table built so far. -/
structure ReadState : Type where
  cur : String
  conf : MimeApps
deriving DecidableEq, Repr

/-- One line of `MimeApps::read`'s loop (src/apps/user.rs:69-114): a section
header switches the current section; a property line contributes an entry
when its handler list is non-empty and its key parses as a MIME type; any
other line is ignored. -/
def readLine (mimeOk installed : String → Bool) (st : ReadState)
    (line : String) : ReadState :=
  match parseSectionName line.data with
  | some name => { st with cur := String.mk name }
  | none =>
    match splitEq line.data with
    | none => st
    | some nv =>
      let handlers := parseHandlers installed nv.2
      if ¬ handlers = [] ∧ mimeOk (String.mk nv.1) then
        { st with conf := sectionInsert st.cur (String.mk nv.1) handlers st.conf }
      else st

/-- `MimeApps::read` (src/apps/user.rs:49-117) over the file's lines (an
absent file reads as no lines, hence the empty table). -/
def MimeApps.readLines (mimeOk installed : String → Bool)
    (lines : List String) : MimeApps :=
  (lines.foldl (readLine mimeOk installed) ⟨"", MimeApps.empty⟩).conf

/-- `itertools` `.join(";")` on the character level. -/
def joinSep : List (List Char) → List Char
  | [] => []
  | [h] => h
  | h :: rest => h ++ ';' :: joinSep rest

/-- One serialized data line `key=value1;value2;...;`
(src/apps/user.rs:137-142: key, `=`, the `;`-joined handlers, and a final
`;`). -/
def propLine (p : String × List String) : String :=
  String.mk (p.1.data ++ '=' :: (joinSep (p.2.map String.data) ++ [';']))

/-- Order on map entries by key; `save` writes entries `iter().sorted()`, and
with unique keys sorting pairs coincides with sorting by key. -/
def keyLe {α : Type} (p q : String × α) : Prop := p.1 ≤ q.1

instance {α : Type} : DecidableRel (@keyLe α) := fun p q => String.decidableLE p.1 q.1

instance {α : Type} : IsTotal (String × α) keyLe := ⟨fun p q => le_total p.1 q.1⟩

instance {α : Type} : IsTrans (String × α) keyLe := ⟨fun _ _ _ h1 h2 => le_trans h1 h2⟩

/-- Entries sorted by key, as written by `save`. -/
def sortByKey {α : Type} (l : List (String × α)) : List (String × α) :=
  l.insertionSort keyLe

/-- `MimeApps::save` (src/apps/user.rs:118-165) as the list of lines it
writes: each section header, then its entries sorted by key; the
`Removed Associations` section (header and blank separator line) is written
only when that mapping is non-empty. -/
def MimeApps.serializeLines (apps : MimeApps) : List String :=
  ["[Added Associations]"] ++ (sortByKey apps.added_associations).map propLine
    ++ (if apps.removed_associations = [] then []
        else ["", "[Removed Associations]"]
          ++ (sortByKey apps.removed_associations).map propLine)
    ++ ["", "[Default Applications]"] ++ (sortByKey apps.default_apps).map propLine

/-- A per-value property holding for every handler list stored in a mapping. -/
def ValProp (P : List String → Prop) (m : List (String × List String)) : Prop :=
  ∀ k hs, alLookup k m = some hs → P hs

theorem valProp_alInsert {P : List String → Prop} {m : List (String × List String)}
    {k : String} {v : List String} (hm : ValProp P m) (hv : P v) :
    ValProp P (alInsert k v m) := by
  intro k' hs' h
  rw [alLookup_alInsert] at h
  by_cases hk : k' = k
  · rw [if_pos hk] at h
    exact Option.some.inj h ▸ hv
  · rw [if_neg hk] at h
    exact hm k' hs' h

/-- The three mappings of a table all satisfy a per-value property. -/
def TableValProp (P : List String → Prop) (conf : MimeApps) : Prop :=
  ValProp P conf.added_associations ∧ ValProp P conf.removed_associations ∧
    ValProp P conf.default_apps

theorem tableValProp_sectionInsert {P : List String → Prop} {conf : MimeApps}
    {cur k : String} {hs : List String} (hconf : TableValProp P conf) (hv : P hs) :
    TableValProp P (sectionInsert cur k hs conf) := by
  obtain ⟨h1, h2, h3⟩ := hconf
  unfold sectionInsert
  by_cases c1 : cur = "Added Associations"
  · rw [if_pos c1]
    exact ⟨valProp_alInsert h1 hv, h2, h3⟩
  · rw [if_neg c1]
    by_cases c2 : cur = "Removed Associations"
    · rw [if_pos c2]
      exact ⟨h1, valProp_alInsert h2 hv, h3⟩
    · rw [if_neg c2]
      by_cases c3 : cur = "Default Applications"
      · rw [if_pos c3]
        exact ⟨h1, h2, valProp_alInsert h3 hv⟩
      · rw [if_neg c3]
        exact ⟨h1, h2, h3⟩

theorem tableValProp_readLine {P : List String → Prop} {mimeOk installed : String → Bool}
    {st : ReadState} {line : String}
    (hP : ∀ value : List Char, ¬ parseHandlers installed value = [] →
      P (parseHandlers installed value))
    (hconf : TableValProp P st.conf) :
    TableValProp P ((readLine mimeOk installed st line).conf) := by
  cases hsec : parseSectionName line.data with
  | some name => simpa only [readLine, hsec] using hconf
  | none =>
    cases hnv : splitEq line.data with
    | none => simpa only [readLine, hsec, hnv] using hconf
    | some nv =>
      by_cases hcond : ¬ parseHandlers installed nv.2 = [] ∧ mimeOk (String.mk nv.1) = true
      · simp only [readLine, hsec, hnv, if_pos hcond]
        exact tableValProp_sectionInsert hconf (hP nv.2 hcond.1)
      · simp only [readLine, hsec, hnv, if_neg hcond]
        exact hconf

theorem tableValProp_foldl {P : List String → Prop} {mimeOk installed : String → Bool}
    (hP : ∀ value : List Char, ¬ parseHandlers installed value = [] →
      P (parseHandlers installed value)) :
    ∀ (lines : List String) (st : ReadState), TableValProp P st.conf →
      TableValProp P ((lines.foldl (readLine mimeOk installed) st).conf) := by
  intro lines
  induction lines with
  | nil => intro st h; exact h
  | cons line rest ih =>
    intro st h
    rw [List.foldl_cons]
    exact ih _ (tableValProp_readLine hP h)

theorem tableValProp_empty {P : List String → Prop} : TableValProp P MimeApps.empty := by
  refine ⟨?_, ?_, ?_⟩ <;> (intro k hs h; cases h)

theorem tableValProp_readLines {P : List String → Prop}
    {mimeOk installed : String → Bool} (lines : List String)
    (hP : ∀ value : List Char, ¬ parseHandlers installed value = [] →
      P (parseHandlers installed value)) :
    TableValProp P (MimeApps.readLines mimeOk installed lines) :=
  tableValProp_foldl hP lines ⟨"", MimeApps.empty⟩ tableValProp_empty

theorem uniqueFirst_nodup {α : Type} [DecidableEq α] :
    ∀ (l seen : List α),
      (uniqueFirst seen l).Nodup ∧ ∀ x ∈ uniqueFirst seen l, x ∉ seen := by
  intro l
  induction l with
  | nil => intro seen; exact ⟨List.nodup_nil, fun x hx => absurd hx (List.not_mem_nil x)⟩
  | cons a rest ih =>
    intro seen
    unfold uniqueFirst
    by_cases ha : a ∈ seen
    · rw [if_pos ha]
      exact ih seen
    · rw [if_neg ha]
      obtain ⟨hnd, hnotin⟩ := ih (a :: seen)
      refine ⟨List.nodup_cons.mpr ⟨?_, hnd⟩, ?_⟩
      · intro hmem
        exact hnotin a hmem (List.mem_cons_self a seen)
      · intro x hx
        cases hx with
        | head => exact ha
        | tail _ hmem => exact fun hs => hnotin x hmem (List.mem_cons_of_mem a hs)

theorem parseHandlers_nodup (installed : String → Bool) (value : List Char) :
    (parseHandlers installed value).Nodup :=
  List.Nodup.filter installed (uniqueFirst_nodup _ []).1

theorem parseHandlers_installed {installed : String → Bool} {value : List Char}
    {h : String} (hmem : h ∈ parseHandlers installed value) : installed h = true :=
  (List.mem_filter.mp hmem).2

def mimeOkAll : String → Bool := fun _ => true

def installedVlcMpv : String → Bool :=
  fun s => s = "vlc.desktop" ∨ s = "mpv.desktop"

def installedNone : String → Bool := fun _ => false

/-- Claim C10: the parsed table never maps a key to an empty handler list,
and a data line whose handler pipeline comes out empty (all tokens empty or
unresolvable) changes nothing: its key gets no entry at all. -/
theorem readLines_no_empty_handler_lists (mimeOk installed : String → Bool) :
    (∀ lines : List String,
      TableValProp (fun hs => ¬ hs = [])
        (MimeApps.readLines mimeOk installed lines)) ∧
    (∀ (st : ReadState) (line : String) (nv : List Char × List Char),
      parseSectionName line.data = none → splitEq line.data = some nv →
      parseHandlers installed nv.2 = [] →
      readLine mimeOk installed st line = st) := by
  constructor
  · intro lines
    exact tableValProp_readLines lines (fun _ h => h)
  · intro st line nv hsec hnv hempty
    have hfalse : ¬ (¬ parseHandlers installed nv.2 = [] ∧
        mimeOk (String.mk nv.1) = true) := fun hc => hc.1 hempty
    simp only [readLine, hsec, hnv]
    rw [if_neg hfalse]

theorem readLines_no_empty_handler_lists_witness :
    alLookup "text/plain"
        (MimeApps.readLines mimeOkAll installedVlcMpv
          ["[Default Applications]", "text/plain=vlc.desktop;"]).default_apps =
      some ["vlc.desktop"] ∧
    ¬ (["vlc.desktop"] : List String) = [] ∧
    parseSectionName "text/plain=;;".data = none ∧
    splitEq "text/plain=;;".data = some ("text/plain".data, ";;".data) ∧
    parseHandlers installedVlcMpv (";;".data) = [] ∧
    readLine mimeOkAll installedVlcMpv ⟨"Default Applications", MimeApps.empty⟩
        "text/plain=;;" =
      ⟨"Default Applications", MimeApps.empty⟩ :=
  ⟨by decide,
    (readLines_no_empty_handler_lists mimeOkAll installedVlcMpv).1
      ["[Default Applications]", "text/plain=vlc.desktop;"] |>.2.2
      "text/plain" ["vlc.desktop"] (by decide),
    by decide, by decide, by decide,
    (readLines_no_empty_handler_lists mimeOkAll installedVlcMpv).2
      ⟨"Default Applications", MimeApps.empty⟩ "text/plain=;;"
      ("text/plain".data, ";;".data) (by decide) (by decide) (by decide)⟩

/-- Claim C7 counterexample: `MimeApps::add_handler` appends unconditionally
(`entry(mime).or_default().push_back(handler)`), so adding a handler already
present duplicates it — uniqueness is not preserved by `add`. -/
theorem add_handler_duplicates :
    (MimeApps.add_handler ⟨[], [], [("text/plain", ["vlc.desktop"])]⟩
        "text/plain" "vlc.desktop").default_apps =
      [("text/plain", ["vlc.desktop", "vlc.desktop"])] ∧
    ¬ (["vlc.desktop", "vlc.desktop"] : List String).Nodup := by
  exact ⟨by decide, by decide⟩

/-- Claim C7 (amended): every handler list produced by parsing is
deduplicated with the first occurrence winning (hence `Nodup`), and
`set_handler` preserves the all-lists-unique invariant; `add_handler`,
however, appends unconditionally and can introduce duplicates. -/
theorem readLines_handler_lists_nodup (mimeOk installed : String → Bool) :
    (∀ lines : List String,
      TableValProp List.Nodup (MimeApps.readLines mimeOk installed lines)) ∧
    (∀ (apps : MimeApps) (mime handler : String),
      TableValProp List.Nodup apps →
      TableValProp List.Nodup (MimeApps.set_handler apps mime handler)) := by
  constructor
  · intro lines
    exact tableValProp_readLines lines (fun value _ => parseHandlers_nodup installed value)
  · intro apps mime handler ⟨h1, h2, h3⟩
    exact ⟨h1, h2, valProp_alInsert h3 (List.nodup_singleton handler)⟩

theorem readLines_handler_lists_nodup_witness :
    alLookup "text/plain"
        (MimeApps.readLines mimeOkAll installedVlcMpv
          ["[Default Applications]",
            "text/plain=vlc.desktop;mpv.desktop;vlc.desktop;"]).default_apps =
      some ["vlc.desktop", "mpv.desktop"] ∧
    (["vlc.desktop", "mpv.desktop"] : List String).Nodup :=
  ⟨by decide,
    (readLines_handler_lists_nodup mimeOkAll installedVlcMpv).1
      ["[Default Applications]", "text/plain=vlc.desktop;mpv.desktop;vlc.desktop;"]
      |>.2.2 "text/plain" ["vlc.desktop", "mpv.desktop"] (by decide)⟩

/-- Claim C8 counterexample: `MimeApps::read` filters handler tokens with
`filter_map(|s| Handler::from_str(s).ok())`: a token that would yield
`HandlerNotFound` is silently discarded and the load still succeeds with no
entry, instead of propagating the error. -/
theorem readLines_swallows_handler_not_found :
    Handler.resolve (fun _ => none) "ghost.desktop" =
      .error (.notFound "ghost.desktop") ∧
    MimeApps.readLines mimeOkAll installedNone
        ["[Default Applications]", "text/plain=ghost.desktop;"] =
      MimeApps.empty :=
  ⟨rfl, by decide⟩

/-- Claim C8 (amended): `Handler::resolve` returns the `HandlerNotFound`
error exactly when the registry cannot resolve the name — propagated to the
caller through its `Result` — but configuration loading does not propagate
it: the parser keeps only tokens the registry resolves and drops failures
silently. -/
theorem handler_resolve_not_found (getPath : String → Option String)
    (installed : String → Bool) :
    (∀ name, Handler.resolve getPath name = .error (.notFound name) ↔
      getPath name = none) ∧
    (∀ (value : List Char) (h : String),
      h ∈ parseHandlers installed value → installed h = true) := by
  constructor
  · intro name
    unfold Handler.resolve
    cases hg : getPath name with
    | none => simp
    | some p => simp
  · intro value h hmem
    exact parseHandlers_installed hmem

theorem handler_resolve_not_found_witness :
    "vlc.desktop" ∈ parseHandlers installedVlcMpv ("vlc.desktop;".data) ∧
    installedVlcMpv "vlc.desktop" = true ∧
    (Handler.resolve (fun _ => none) "ghost.desktop" =
        .error (.notFound "ghost.desktop") ↔ (fun _ => none : String → Option String) "ghost.desktop" = none) :=
  ⟨by decide,
    (handler_resolve_not_found (fun _ => none) installedVlcMpv).2
      ("vlc.desktop;".data) "vlc.desktop" (by decide),
    (handler_resolve_not_found (fun _ => none) installedVlcMpv).1 "ghost.desktop"⟩

theorem mem_keys_alInsert {α : Type} {k' k : String} {v : α}
    {m : List (String × α)} :
    k' ∈ (alInsert k v m).map Prod.fst → k' = k ∨ k' ∈ m.map Prod.fst := by
  induction m with
  | nil =>
    intro h
    rcases List.mem_singleton.mp h with h1
    exact Or.inl h1
  | cons p rest ih =>
    unfold alInsert
    by_cases hk : k = p.1
    · rw [if_pos hk]
      intro h
      rcases List.mem_cons.mp h with h1 | h2
      · exact Or.inl h1
      · exact Or.inr (List.mem_cons_of_mem _ h2)
    · rw [if_neg hk]
      intro h
      rcases List.mem_cons.mp h with h1 | h2
      · exact Or.inr (h1 ▸ List.mem_cons_self _ _)
      · rcases ih h2 with h3 | h4
        · exact Or.inl h3
        · exact Or.inr (List.mem_cons_of_mem _ h4)

theorem nodup_keys_alInsert {α : Type} (k : String) (v : α)
    {m : List (String × α)} (h : (m.map Prod.fst).Nodup) :
    ((alInsert k v m).map Prod.fst).Nodup := by
  induction m with
  | nil => simp [alInsert]
  | cons p rest ih =>
    rw [List.map_cons, List.nodup_cons] at h
    unfold alInsert
    by_cases hk : k = p.1
    · rw [if_pos hk, List.map_cons, List.nodup_cons]
      exact ⟨fun hmem => h.1 (hk ▸ hmem), h.2⟩
    · rw [if_neg hk, List.map_cons, List.nodup_cons]
      refine ⟨?_, ih h.2⟩
      intro hmem
      rcases mem_keys_alInsert hmem with h1 | h2
      · exact hk h1.symm
      · exact h.1 h2

theorem unaliasStep_cases {α : Type} (db : AliasDb)
    (acc : List (String × String × α)) (entry : String × α) :
    unaliasStep db acc entry = acc ∨
      ∃ w, unaliasStep db acc entry = alInsert (unalias_mime db entry.1) w acc := by
  unfold unaliasStep
  by_cases h1 : entry.1 = unalias_mime db entry.1
  · rw [if_pos h1]
    exact Or.inr ⟨_, rfl⟩
  · rw [if_neg h1]
    cases alLookup (unalias_mime db entry.1) acc with
    | none => exact Or.inr ⟨_, rfl⟩
    | some old =>
      dsimp only
      by_cases h2 : old.1 = unalias_mime db entry.1
      · rw [if_pos h2]
        exact Or.inl rfl
      · rw [if_neg h2]
        by_cases h3 : entry.1 < old.1
        · rw [if_pos h3]
          exact Or.inr ⟨_, rfl⟩
        · rw [if_neg h3]
          exact Or.inl rfl

theorem foldl_unaliasStep_keys {α : Type} (db : AliasDb) (P : String → Prop)
    (hP : ∀ m, P (unalias_mime db m)) :
    ∀ (l : List (String × α)) (acc : List (String × String × α)),
      (∀ k ∈ acc.map Prod.fst, P k) →
      ∀ k ∈ (l.foldl (unaliasStep db) acc).map Prod.fst, P k := by
  intro l
  induction l with
  | nil => intro acc hacc; exact hacc
  | cons entry rest ih =>
    intro acc hacc
    rw [List.foldl_cons]
    refine ih (unaliasStep db acc entry) ?_
    rcases unaliasStep_cases db acc entry with hcase | ⟨w, hcase⟩
    · rw [hcase]; exact hacc
    · rw [hcase]
      intro k hk
      rcases mem_keys_alInsert hk with h1 | h2
      · exact h1 ▸ hP entry.1
      · exact hacc k h2

theorem foldl_unaliasStep_nodup_keys {α : Type} (db : AliasDb) :
    ∀ (l : List (String × α)) (acc : List (String × String × α)),
      (acc.map Prod.fst).Nodup →
      ((l.foldl (unaliasStep db) acc).map Prod.fst).Nodup := by
  intro l
  induction l with
  | nil => intro acc hacc; exact hacc
  | cons entry rest ih =>
    intro acc hacc
    rw [List.foldl_cons]
    refine ih (unaliasStep db acc entry) ?_
    rcases unaliasStep_cases db acc entry with hcase | ⟨w, hcase⟩
    · rw [hcase]; exact hacc
    · rw [hcase]
      exact nodup_keys_alInsert _ w hacc

theorem keys_map_snd {α : Type} (l : List (String × String × α)) :
    (l.map (fun p => (p.1, p.2.2))).map Prod.fst = l.map Prod.fst := by
  rw [List.map_map]
  rfl

/-- A database whose canonical targets are themselves canonical makes
`unalias_mime` idempotent (the shape of the real shared MIME database). -/
theorem unalias_mime_idempotent (db : AliasDb)
    (h_db : ∀ row ∈ db.aliases, unalias_mime db row.2 = row.2) (m : String) :
    unalias_mime db (unalias_mime db m) = unalias_mime db m := by
  cases hl : alLookup m db.aliases with
  | none =>
    have h1 : unalias_mime db m = m := by unfold unalias_mime; rw [hl]
    rw [h1]
    exact h1
  | some c =>
    have h1 : unalias_mime db m = c := by unfold unalias_mime; rw [hl]
    rw [h1]
    exact h_db (m, c) (mem_of_alLookup_eq_some hl)

theorem unalias_mime_map_keys_canonical {α : Type} (db : AliasDb)
    (h_db : ∀ row ∈ db.aliases, unalias_mime db row.2 = row.2)
    (l : List (String × α)) :
    (∀ k ∈ (unalias_mime_map db l).map Prod.fst, unalias_mime db k = k) ∧
      ((unalias_mime_map db l).map Prod.fst).Nodup := by
  unfold unalias_mime_map
  rw [keys_map_snd]
  constructor
  · exact foldl_unaliasStep_keys db (fun k => unalias_mime db k = k)
      (unalias_mime_idempotent db h_db) l [] (fun k hk => absurd hk (List.not_mem_nil k))
  · exact foldl_unaliasStep_nodup_keys db l [] List.nodup_nil

/-- `CanonicalMimeApps` (src/apps/canonical.rs:120-123): the alias database
(a constructor-time collaborator, `SharedMimeInfo::new()`) plus the wrapped
table. -/
structure CanonicalMimeApps : Type where
  db : AliasDb
  mimeapps : MimeApps

/-- `From<MimeApps> for CanonicalMimeApps` (src/apps/canonical.rs:125-143):
canonicalize the added-associations and default-apps mappings with
`unalias_mime_map`; the remaining mapping is moved over verbatim. -/
def CanonicalMimeApps.fromMimeApps (db : AliasDb) (mimeapps : MimeApps) :
    CanonicalMimeApps :=
  { db := db
    mimeapps :=
      { added_associations := unalias_mime_map db mimeapps.added_associations
        removed_associations := mimeapps.removed_associations
        default_apps := unalias_mime_map db mimeapps.default_apps } }

def CanonicalMimeApps.unalias (c : CanonicalMimeApps) (mime : String) : String :=
  unalias_mime c.db mime

/-- `CanonicalMimeApps::remove_handler` (src/apps/canonical.rs:158-166):
unalias the target, then delegate to `MimeApps::remove_handler`. -/
def CanonicalMimeApps.remove_handler (c : CanonicalMimeApps) (mime : String) :
    Except Error (MimeApps × Nat) :=
  c.mimeapps.remove_handler (c.unalias mime)

/-- Claim C4 counterexample: `From<MimeApps>` canonicalizes only the added
and defaults mappings; the removed (third) mapping is moved over untouched,
so a non-canonical key survives construction there. -/
theorem fromMimeApps_removed_not_canonicalized :
    (CanonicalMimeApps.fromMimeApps dbFlac
        ⟨[], [("audio/x-flac", ["vlc.desktop"])], []⟩).mimeapps.removed_associations =
      [("audio/x-flac", ["vlc.desktop"])] ∧
    ¬ unalias_mime dbFlac "audio/x-flac" = "audio/x-flac" :=
  ⟨by decide, by decide⟩

/-- Claim C4 (amended): provided the alias database maps every alias to a
target that is itself canonical, construction leaves the added and defaults
mappings with only canonical keys and no two entries for the same canonical
type; the removed mapping is passed through unchanged and may keep alias
keys. -/
theorem fromMimeApps_canonicalizes_added_defaults (db : AliasDb) (apps : MimeApps)
    (h_db : ∀ row ∈ db.aliases, unalias_mime db row.2 = row.2) :
    (∀ k ∈ (CanonicalMimeApps.fromMimeApps db apps).mimeapps.added_associations.map
        Prod.fst, unalias_mime db k = k) ∧
    ((CanonicalMimeApps.fromMimeApps db apps).mimeapps.added_associations.map
        Prod.fst).Nodup ∧
    (∀ k ∈ (CanonicalMimeApps.fromMimeApps db apps).mimeapps.default_apps.map
        Prod.fst, unalias_mime db k = k) ∧
    ((CanonicalMimeApps.fromMimeApps db apps).mimeapps.default_apps.map
        Prod.fst).Nodup ∧
    (CanonicalMimeApps.fromMimeApps db apps).mimeapps.removed_associations =
      apps.removed_associations := by
  obtain ⟨ha1, ha2⟩ := unalias_mime_map_keys_canonical db h_db apps.added_associations
  obtain ⟨hd1, hd2⟩ := unalias_mime_map_keys_canonical db h_db apps.default_apps
  exact ⟨ha1, ha2, hd1, hd2, rfl⟩

theorem fromMimeApps_canonicalizes_added_defaults_witness :
    (∀ row ∈ dbFlac.aliases, unalias_mime dbFlac row.2 = row.2) ∧
    "audio/flac" ∈ (CanonicalMimeApps.fromMimeApps dbFlac
        ⟨[("audio/x-flac", ["vlc.desktop"])], [], []⟩).mimeapps.added_associations.map
        Prod.fst ∧
    unalias_mime dbFlac "audio/flac" = "audio/flac" :=
  ⟨by decide, by decide,
    (fromMimeApps_canonicalizes_added_defaults dbFlac
        ⟨[("audio/x-flac", ["vlc.desktop"])], [], []⟩ (by decide)).1
      "audio/flac" (by decide)⟩

theorem alLookup_cons {α : Type} (k : String) (p : String × α)
    (rest : List (String × α)) :
    alLookup k (p :: rest) = if k = p.1 then some p.2 else alLookup k rest := rfl

theorem alLookup_eq_none_of_not_mem {α : Type} {k : String} {m : List (String × α)}
    (h : k ∉ m.map Prod.fst) : alLookup k m = none := by
  induction m with
  | nil => rfl
  | cons p rest ih =>
    rw [List.map_cons] at h
    rw [alLookup_cons, if_neg (fun hk => h (List.mem_cons.mpr (Or.inl hk)))]
    exact ih (fun hk => h (List.mem_cons_of_mem _ hk))

theorem alLookup_alErase_self {α : Type} {k : String} {m : List (String × α)}
    (hnd : (m.map Prod.fst).Nodup) : alLookup k (alErase k m) = none := by
  induction m with
  | nil => rfl
  | cons p rest ih =>
    rw [List.map_cons, List.nodup_cons] at hnd
    unfold alErase
    by_cases hk : k = p.1
    · rw [if_pos hk]
      exact alLookup_eq_none_of_not_mem (fun hmem => hnd.1 (hk ▸ hmem))
    · rw [if_neg hk, alLookup_cons, if_neg hk]
      exact ih hnd.2

theorem alLookup_alErase_other {α : Type} {k' k : String} {m : List (String × α)}
    (h : ¬ k' = k) : alLookup k' (alErase k m) = alLookup k' m := by
  induction m with
  | nil => rfl
  | cons p rest ih =>
    unfold alErase
    by_cases hk : k = p.1
    · rw [if_pos hk, alLookup_cons, if_neg (fun hh => h (hh.trans hk.symm))]
    · rw [if_neg hk, alLookup_cons, alLookup_cons]
      by_cases hk' : k' = p.1
      · rw [if_pos hk', if_pos hk']
      · rw [if_neg hk', if_neg hk', ih]

/-- Claim C9: `remove(mime)` canonicalizes the target; when
`defaults[canonical]` is present it deletes that key entirely and performs
exactly one persisted write (the `Nat` component counts `save()` calls);
when absent it performs no write, leaves the table unchanged, and still
returns success. -/
theorem remove_handler_spec (db : AliasDb) (apps : MimeApps) (mime : String)
    (hnd : (apps.default_apps.map Prod.fst).Nodup) :
    (∀ hs, alLookup (unalias_mime db mime) apps.default_apps = some hs →
      CanonicalMimeApps.remove_handler ⟨db, apps⟩ mime =
          .ok (⟨apps.added_associations, apps.removed_associations,
            alErase (unalias_mime db mime) apps.default_apps⟩, 1) ∧
        alLookup (unalias_mime db mime)
          (alErase (unalias_mime db mime) apps.default_apps) = none ∧
        (∀ k, ¬ k = unalias_mime db mime →
          alLookup k (alErase (unalias_mime db mime) apps.default_apps) =
            alLookup k apps.default_apps)) ∧
    (alLookup (unalias_mime db mime) apps.default_apps = none →
      CanonicalMimeApps.remove_handler ⟨db, apps⟩ mime = .ok (apps, 0)) := by
  constructor
  · intro hs h
    refine ⟨?_, alLookup_alErase_self hnd, fun k hk => alLookup_alErase_other hk⟩
    simp only [CanonicalMimeApps.remove_handler, CanonicalMimeApps.unalias,
      MimeApps.remove_handler, h]
  · intro h
    simp only [CanonicalMimeApps.remove_handler, CanonicalMimeApps.unalias,
      MimeApps.remove_handler, h]

theorem remove_handler_spec_witness :
    CanonicalMimeApps.remove_handler
        ⟨dbFlac, ⟨[], [], [("audio/flac", ["vlc.desktop"])]⟩⟩ "audio/x-flac" =
      .ok (⟨[], [], []⟩, 1) ∧
    CanonicalMimeApps.remove_handler ⟨dbFlac, ⟨[], [], []⟩⟩ "audio/x-flac" =
      .ok (⟨[], [], []⟩, 0) :=
  ⟨((remove_handler_spec dbFlac ⟨[], [], [("audio/flac", ["vlc.desktop"])]⟩
      "audio/x-flac" (by decide)).1 ["vlc.desktop"] (by decide)).1,
    (remove_handler_spec dbFlac ⟨[], [], []⟩ "audio/x-flac" (by decide)).2 (by decide)⟩

theorem splitOnChar_cons (c x : Char) (rest : List Char) :
    splitOnChar c (x :: rest) =
      match splitOnChar c rest with
      | [] => [[]]
      | part :: parts =>
        if x = c then [] :: part :: parts else (x :: part) :: parts := rfl

theorem splitOnChar_ne_nil (c : Char) (l : List Char) : ¬ splitOnChar c l = [] := by
  cases l with
  | nil => intro h; cases h
  | cons x rest =>
    rw [splitOnChar_cons]
    cases splitOnChar c rest with
    | nil => intro h; cases h
    | cons part parts =>
      dsimp only
      by_cases hx : x = c
      · rw [if_pos hx]; intro h; cases h
      · rw [if_neg hx]; intro h; cases h

theorem splitOnChar_of_not_mem {c : Char} {l : List Char} (h : c ∉ l) :
    splitOnChar c l = [l] := by
  induction l with
  | nil => rfl
  | cons x rest ih =>
    rw [splitOnChar_cons, ih (fun hm => h (List.mem_cons_of_mem _ hm))]
    dsimp only
    rw [if_neg (fun hx => h (List.mem_cons.mpr (Or.inl hx.symm)))]

theorem splitOnChar_append_cons {c : Char} {h : List Char} (t : List Char)
    (hh : c ∉ h) : splitOnChar c (h ++ c :: t) = h :: splitOnChar c t := by
  induction h with
  | nil =>
    rw [List.nil_append, splitOnChar_cons]
    cases hs : splitOnChar c t with
    | nil => exact absurd hs (splitOnChar_ne_nil c t)
    | cons part parts =>
      dsimp only
      rw [if_pos rfl]
  | cons x xs ih =>
    rw [List.cons_append, splitOnChar_cons,
      ih (fun hm => hh (List.mem_cons_of_mem _ hm))]
    dsimp only
    rw [if_neg (fun hx => hh (List.mem_cons.mpr (Or.inl hx.symm)))]

theorem splitOnChar_joinSep :
    ∀ (parts : List (List Char)), ¬ parts = [] → (∀ part ∈ parts, ';' ∉ part) →
      splitOnChar ';' (joinSep parts ++ [';']) = parts ++ [[]] := by
  intro parts
  induction parts with
  | nil => intro h; exact absurd rfl h
  | cons h rest ih =>
    intro _ hfree
    cases rest with
    | nil =>
      show splitOnChar ';' (h ++ ';' :: []) = [h, []]
      rw [splitOnChar_append_cons [] (hfree h (List.mem_cons_self _ _))]
      rfl
    | cons h2 rest2 =>
      have hjoin : joinSep (h :: h2 :: rest2) = h ++ ';' :: joinSep (h2 :: rest2) := rfl
      rw [hjoin, List.append_assoc, List.cons_append,
        splitOnChar_append_cons _ (hfree h (List.mem_cons_self _ _)),
        ih (by intro hc; cases hc)
          (fun part hp => hfree part (List.mem_cons_of_mem _ hp))]
      rfl

theorem uniqueFirst_of_nodup {α : Type} [DecidableEq α] :
    ∀ (l seen : List α), l.Nodup → (∀ x ∈ l, x ∉ seen) → uniqueFirst seen l = l := by
  intro l
  induction l with
  | nil => intro seen _ _; rfl
  | cons a rest ih =>
    intro seen hnd hsk
    rw [List.nodup_cons] at hnd
    unfold uniqueFirst
    rw [if_neg (hsk a (List.mem_cons_self _ _))]
    rw [ih (a :: seen) hnd.2]
    intro x hx
    intro hmem
    cases hmem with
    | head => exact hnd.1 hx
    | tail _ hm => exact hsk x (List.mem_cons_of_mem _ hx) hm

theorem parseHandlers_joinSep (installed : String → Bool) (hs : List String)
    (hne : ¬ hs = [])
    (hgood : ∀ h ∈ hs, installed h = true ∧ ¬ h = "" ∧ ';' ∉ h.data)
    (hnd : hs.Nodup) :
    parseHandlers installed (joinSep (hs.map String.data) ++ [';']) = hs := by
  unfold parseHandlers
  rw [splitOnChar_joinSep (hs.map String.data)
    (fun hmap => hne (List.map_eq_nil_iff.mp hmap))
    (by
      intro part hp
      obtain ⟨h, hh, hpart⟩ := List.mem_map.mp hp
      exact hpart ▸ (hgood h hh).2.2)]
  rw [List.map_append, List.map_map]
  rw [show (String.mk ∘ String.data) = id from rfl, List.map_id]
  have hmapnil : (([[]] : List (List Char)).map String.mk) = [""] := rfl
  rw [hmapnil, List.filter_append]
  have hfilter1 : hs.filter (fun s => ¬ s = "") = hs :=
    List.filter_eq_self.mpr (fun a ha => decide_eq_true (hgood a ha).2.1)
  have hfilter2 : ([""] : List String).filter (fun s => ¬ s = "") = [] := rfl
  rw [hfilter1, hfilter2, List.append_nil]
  rw [uniqueFirst_of_nodup hs [] hnd (fun x _ hmem => (List.not_mem_nil x) hmem)]
  exact List.filter_eq_self.mpr (fun a ha => (hgood a ha).1)

theorem parseSectionName_cons (x : Char) (rest : List Char) :
    parseSectionName (x :: rest) =
      if x = '[' then
        match rest.reverse with
        | [] => none
        | y :: revMid => if y = ']' then some revMid.reverse else none
      else none := rfl

theorem parseSectionName_append_semi : ∀ l : List Char,
    parseSectionName (l ++ [';']) = none := by
  intro l
  cases l with
  | nil => rfl
  | cons x xs =>
    rw [List.cons_append, parseSectionName_cons]
    by_cases hx : x = '['
    · rw [if_pos hx]
      have hrev : (xs ++ [';']).reverse = ';' :: xs.reverse := by
        rw [List.reverse_append]
        rfl
      rw [hrev]
      dsimp only
      rw [if_neg (by decide : ¬ (';' : Char) = ']')]
    · rw [if_neg hx]

theorem splitEq_cons (x : Char) (rest : List Char) :
    splitEq (x :: rest) =
      if x = '=' then some ([], rest)
      else (splitEq rest).map (fun nv => (x :: nv.1, nv.2)) := rfl

theorem splitEq_append {k : List Char} (v : List Char) (hk : '=' ∉ k) :
    splitEq (k ++ '=' :: v) = some (k, v) := by
  induction k with
  | nil =>
    rw [List.nil_append, splitEq_cons, if_pos rfl]
  | cons x xs ih =>
    rw [List.cons_append, splitEq_cons,
      if_neg (fun hx => hk (List.mem_cons.mpr (Or.inl hx.symm))),
      ih (fun hm => hk (List.mem_cons_of_mem _ hm))]
    rfl

theorem propLine_data (p : String × List String) :
    (propLine p).data =
      p.1.data ++ '=' :: (joinSep (p.2.map String.data) ++ [';']) := rfl

/-- Parsing one serialized data line inserts exactly its entry into the
current section's mapping. -/
theorem readLine_propLine (mimeOk installed : String → Bool) (st : ReadState)
    (k : String) (hs : List String)
    (hkeq : '=' ∉ k.data) (hmime : mimeOk k = true) (hne : ¬ hs = [])
    (hgood : ∀ h ∈ hs, installed h = true ∧ ¬ h = "" ∧ ';' ∉ h.data)
    (hnd : hs.Nodup) :
    readLine mimeOk installed st (propLine (k, hs)) =
      ⟨st.cur, sectionInsert st.cur k hs st.conf⟩ := by
  have hsec : parseSectionName (propLine (k, hs)).data = none := by
    rw [propLine_data]
    have : k.data ++ '=' :: (joinSep (hs.map String.data) ++ [';']) =
        (k.data ++ '=' :: joinSep (hs.map String.data)) ++ [';'] := by
      rw [List.append_assoc]
      rfl
    rw [this]
    exact parseSectionName_append_semi _
  have hspl : splitEq (propLine (k, hs)).data =
      some (k.data, joinSep (hs.map String.data) ++ [';']) := by
    rw [propLine_data]
    exact splitEq_append _ hkeq
  have hhandlers : parseHandlers installed (joinSep (hs.map String.data) ++ [';']) = hs :=
    parseHandlers_joinSep installed hs hne hgood hnd
  simp only [readLine, hsec, hspl, hhandlers]
  rw [if_pos ⟨hne, hmime⟩]

theorem alLookup_foldl_alInsert_not_mem {α : Type} {k : String} :
    ∀ (l : List (String × α)) (m0 : List (String × α)), k ∉ l.map Prod.fst →
      alLookup k (l.foldl (fun m p => alInsert p.1 p.2 m) m0) = alLookup k m0 := by
  intro l
  induction l with
  | nil => intro m0 _; rfl
  | cons p rest ih =>
    intro m0 hk
    rw [List.map_cons] at hk
    rw [List.foldl_cons, ih _ (fun hm => hk (List.mem_cons_of_mem _ hm)),
      alLookup_alInsert]
    rw [if_neg (fun hh => hk (List.mem_cons.mpr (Or.inl hh)))]

theorem alLookup_foldl_alInsert_mem {α : Type} {k : String} {v : α} :
    ∀ (l : List (String × α)) (m0 : List (String × α)), (l.map Prod.fst).Nodup →
      (k, v) ∈ l →
      alLookup k (l.foldl (fun m p => alInsert p.1 p.2 m) m0) = some v := by
  intro l
  induction l with
  | nil => intro m0 _ hmem; cases hmem
  | cons p rest ih =>
    intro m0 hnd hmem
    rw [List.map_cons, List.nodup_cons] at hnd
    rw [List.foldl_cons]
    cases hmem with
    | head =>
      rw [alLookup_foldl_alInsert_not_mem rest _ hnd.1, alLookup_alInsert,
        if_pos rfl]
    | tail _ hm => exact ih _ hnd.2 hm

/-- The per-entry side conditions under which a mapping round-trips through
the textual format: parseable key without `=`, and non-empty, duplicate-free
lists of resolvable, non-empty, `;`-free handlers. -/
def GoodMapping (mimeOk installed : String → Bool)
    (m : List (String × List String)) : Prop :=
  (m.map Prod.fst).Nodup ∧
    ∀ p ∈ m, mimeOk p.1 = true ∧ '=' ∉ p.1.data ∧ ¬ p.2 = [] ∧ p.2.Nodup ∧
      ∀ h ∈ p.2, installed h = true ∧ ¬ h = "" ∧ ';' ∉ h.data

instance (mimeOk installed : String → Bool) (m : List (String × List String)) :
    Decidable (GoodMapping mimeOk installed m) := by
  unfold GoodMapping
  infer_instance

theorem foldl_readLine_props (mimeOk installed : String → Bool) :
    ∀ (props : List (String × List String)) (st : ReadState),
      (∀ p ∈ props, mimeOk p.1 = true ∧ '=' ∉ p.1.data ∧ ¬ p.2 = [] ∧ p.2.Nodup ∧
        ∀ h ∈ p.2, installed h = true ∧ ¬ h = "" ∧ ';' ∉ h.data) →
      (props.map propLine).foldl (readLine mimeOk installed) st =
        ⟨st.cur, props.foldl (fun conf p => sectionInsert st.cur p.1 p.2 conf)
          st.conf⟩ := by
  intro props
  induction props with
  | nil => intro st _; rfl
  | cons p rest ih =>
    intro st hgood
    obtain ⟨k, hs⟩ := p
    obtain ⟨h1, h2, h3, h4, h5⟩ := hgood (k, hs) (List.mem_cons_self _ _)
    rw [List.map_cons, List.foldl_cons,
      readLine_propLine mimeOk installed st k hs h2 h1 h3 h5 h4,
      ih ⟨st.cur, sectionInsert st.cur k hs st.conf⟩
        (fun q hq => hgood q (List.mem_cons_of_mem _ hq)),
      List.foldl_cons]

theorem foldl_sectionInsert_added :
    ∀ (props : List (String × List String)) (conf : MimeApps),
      props.foldl (fun conf p => sectionInsert "Added Associations" p.1 p.2 conf)
          conf =
        ⟨props.foldl (fun m p => alInsert p.1 p.2 m) conf.added_associations,
          conf.removed_associations, conf.default_apps⟩ := by
  intro props
  induction props with
  | nil => intro conf; rfl
  | cons p rest ih =>
    intro conf
    rw [List.foldl_cons, List.foldl_cons]
    exact ih _

theorem foldl_sectionInsert_removed :
    ∀ (props : List (String × List String)) (conf : MimeApps),
      props.foldl (fun conf p => sectionInsert "Removed Associations" p.1 p.2 conf)
          conf =
        ⟨conf.added_associations,
          props.foldl (fun m p => alInsert p.1 p.2 m) conf.removed_associations,
          conf.default_apps⟩ := by
  intro props
  induction props with
  | nil => intro conf; rfl
  | cons p rest ih =>
    intro conf
    rw [List.foldl_cons, List.foldl_cons]
    exact ih _

theorem foldl_sectionInsert_defaults :
    ∀ (props : List (String × List String)) (conf : MimeApps),
      props.foldl (fun conf p => sectionInsert "Default Applications" p.1 p.2 conf)
          conf =
        ⟨conf.added_associations, conf.removed_associations,
          props.foldl (fun m p => alInsert p.1 p.2 m) conf.default_apps⟩ := by
  intro props
  induction props with
  | nil => intro conf; rfl
  | cons p rest ih =>
    intro conf
    rw [List.foldl_cons, List.foldl_cons]
    exact ih _

theorem readLine_header (mimeOk installed : String → Bool) (st : ReadState)
    {line : String} {name : List Char}
    (h : parseSectionName line.data = some name) :
    readLine mimeOk installed st line = ⟨String.mk name, st.conf⟩ := by
  simp only [readLine, h]

theorem readLine_blank (mimeOk installed : String → Bool) (st : ReadState) :
    readLine mimeOk installed st "" = st := rfl

theorem alLookup_foldl_sorted (m : List (String × List String))
    (hnd : (m.map Prod.fst).Nodup) (k : String) :
    alLookup k ((sortByKey m).foldl (fun acc p => alInsert p.1 p.2 acc) []) =
      alLookup k m := by
  have hperm : sortByKey m |>.Perm m := List.perm_insertionSort keyLe m
  have hnd' : ((sortByKey m).map Prod.fst).Nodup :=
    ((hperm.map Prod.fst).nodup_iff).mpr hnd
  cases hm : alLookup k m with
  | some v =>
    have hmem : (k, v) ∈ sortByKey m := (hperm.mem_iff).mpr (mem_of_alLookup_eq_some hm)
    exact alLookup_foldl_alInsert_mem _ [] hnd' hmem
  | none =>
    have hnotin : k ∉ (sortByKey m).map Prod.fst := by
      intro hk
      obtain ⟨p, hp, hpk⟩ := List.mem_map.mp hk
      exact alLookup_eq_none_forall hm p ((hperm.mem_iff).mp hp) hpk
    rw [alLookup_foldl_alInsert_not_mem _ [] hnotin]
    rfl

theorem sortByKey_keys_sorted {α : Type} (m : List (String × α)) :
    List.Sorted (· ≤ ·) ((sortByKey m).map Prod.fst) :=
  List.Pairwise.map Prod.fst (fun _ _ hab => hab) (List.sorted_insertionSort keyLe m)

theorem propLine_ne_removed_header (p : String × List String) :
    ¬ propLine p = "[Removed Associations]" := by
  intro h
  have hdata : (propLine p).data = "[Removed Associations]".data :=
    congrArg String.data h
  rw [propLine_data] at hdata
  have hassoc : p.1.data ++ '=' :: (joinSep (p.2.map String.data) ++ [';']) =
      (p.1.data ++ '=' :: joinSep (p.2.map String.data)) ++ [';'] := by
    rw [List.append_assoc]
    rfl
  have hlast : ("[Removed Associations]".data).getLast? = some ';' := by
    rw [← hdata, hassoc]
    exact List.getLast?_concat _
  exact absurd hlast (by decide)

theorem removed_header_mem_serialize (apps : MimeApps) :
    "[Removed Associations]" ∈ MimeApps.serializeLines apps ↔
      ¬ apps.removed_associations = [] := by
  constructor
  · intro hmem hempty
    unfold MimeApps.serializeLines at hmem
    rw [if_pos hempty] at hmem
    rcases List.mem_append.mp hmem with h1 | h2
    · rcases List.mem_append.mp h1 with h3 | h4
      · rcases List.mem_append.mp h3 with h5 | h6
        · rcases List.mem_append.mp h5 with h7 | h8
          · exact absurd (List.mem_singleton.mp h7) (by decide)
          · obtain ⟨p, _, hp⟩ := List.mem_map.mp h8
            exact propLine_ne_removed_header p hp
        · cases h6
      · rcases List.mem_cons.mp h4 with h4a | h4b
        · exact absurd h4a (by decide)
        · rcases List.mem_cons.mp h4b with h4c | h4d
          · exact absurd h4c (by decide)
          · cases h4d
    · obtain ⟨p, _, hp⟩ := List.mem_map.mp h2
      exact propLine_ne_removed_header p hp
  · intro hne
    unfold MimeApps.serializeLines
    rw [if_neg hne]
    refine List.mem_append_left _ (List.mem_append_left _ ?_)
    refine List.mem_append_right _ ?_
    refine List.mem_append_left _ ?_
    exact List.mem_cons.mpr (Or.inr (List.mem_cons.mpr (Or.inl rfl)))

theorem readLine_added_header (mimeOk installed : String → Bool) (cur : String)
    (conf : MimeApps) :
    readLine mimeOk installed ⟨cur, conf⟩ "[Added Associations]" =
      ⟨"Added Associations", conf⟩ :=
  @readLine_header mimeOk installed ⟨cur, conf⟩ "[Added Associations]"
    ("Added Associations".data) (by decide)

theorem readLine_removed_header (mimeOk installed : String → Bool) (cur : String)
    (conf : MimeApps) :
    readLine mimeOk installed ⟨cur, conf⟩ "[Removed Associations]" =
      ⟨"Removed Associations", conf⟩ :=
  @readLine_header mimeOk installed ⟨cur, conf⟩ "[Removed Associations]"
    ("Removed Associations".data) (by decide)

theorem readLine_default_header (mimeOk installed : String → Bool) (cur : String)
    (conf : MimeApps) :
    readLine mimeOk installed ⟨cur, conf⟩ "[Default Applications]" =
      ⟨"Default Applications", conf⟩ :=
  @readLine_header mimeOk installed ⟨cur, conf⟩ "[Default Applications]"
    ("Default Applications".data) (by decide)

theorem foldl_readLine_added_block (mimeOk installed : String → Bool)
    (props : List (String × List String)) (conf : MimeApps)
    (hgood : ∀ p ∈ props, mimeOk p.1 = true ∧ '=' ∉ p.1.data ∧ ¬ p.2 = [] ∧
      p.2.Nodup ∧ ∀ h ∈ p.2, installed h = true ∧ ¬ h = "" ∧ ';' ∉ h.data) :
    (props.map propLine).foldl (readLine mimeOk installed)
        ⟨"Added Associations", conf⟩ =
      ⟨"Added Associations",
        ⟨props.foldl (fun m p => alInsert p.1 p.2 m) conf.added_associations,
          conf.removed_associations, conf.default_apps⟩⟩ := by
  rw [foldl_readLine_props mimeOk installed props _ hgood]
  dsimp only
  rw [foldl_sectionInsert_added]

theorem foldl_readLine_removed_block (mimeOk installed : String → Bool)
    (props : List (String × List String)) (conf : MimeApps)
    (hgood : ∀ p ∈ props, mimeOk p.1 = true ∧ '=' ∉ p.1.data ∧ ¬ p.2 = [] ∧
      p.2.Nodup ∧ ∀ h ∈ p.2, installed h = true ∧ ¬ h = "" ∧ ';' ∉ h.data) :
    (props.map propLine).foldl (readLine mimeOk installed)
        ⟨"Removed Associations", conf⟩ =
      ⟨"Removed Associations",
        ⟨conf.added_associations,
          props.foldl (fun m p => alInsert p.1 p.2 m) conf.removed_associations,
          conf.default_apps⟩⟩ := by
  rw [foldl_readLine_props mimeOk installed props _ hgood]
  dsimp only
  rw [foldl_sectionInsert_removed]

theorem foldl_readLine_default_block (mimeOk installed : String → Bool)
    (props : List (String × List String)) (conf : MimeApps)
    (hgood : ∀ p ∈ props, mimeOk p.1 = true ∧ '=' ∉ p.1.data ∧ ¬ p.2 = [] ∧
      p.2.Nodup ∧ ∀ h ∈ p.2, installed h = true ∧ ¬ h = "" ∧ ';' ∉ h.data) :
    (props.map propLine).foldl (readLine mimeOk installed)
        ⟨"Default Applications", conf⟩ =
      ⟨"Default Applications",
        ⟨conf.added_associations, conf.removed_associations,
          props.foldl (fun m p => alInsert p.1 p.2 m) conf.default_apps⟩⟩ := by
  rw [foldl_readLine_props mimeOk installed props _ hgood]
  dsimp only
  rw [foldl_sectionInsert_defaults]

theorem foldl_added_header_chunk (mimeOk installed : String → Bool) (cur : String)
    (conf : MimeApps) :
    List.foldl (readLine mimeOk installed) ⟨cur, conf⟩ ["[Added Associations]"] =
      ⟨"Added Associations", conf⟩ := by
  rw [List.foldl_cons, List.foldl_nil, readLine_added_header]

theorem foldl_removed_header_chunk (mimeOk installed : String → Bool) (cur : String)
    (conf : MimeApps) :
    List.foldl (readLine mimeOk installed) ⟨cur, conf⟩
        ["", "[Removed Associations]"] =
      ⟨"Removed Associations", conf⟩ := by
  rw [List.foldl_cons, readLine_blank, List.foldl_cons, List.foldl_nil,
    readLine_removed_header]

theorem foldl_default_header_chunk (mimeOk installed : String → Bool) (cur : String)
    (conf : MimeApps) :
    List.foldl (readLine mimeOk installed) ⟨cur, conf⟩
        ["", "[Default Applications]"] =
      ⟨"Default Applications", conf⟩ := by
  rw [List.foldl_cons, readLine_blank, List.foldl_cons, List.foldl_nil,
    readLine_default_header]

/-- Claim C5: parsing the text produced by serializing a table (whose
entries satisfy the data-model invariants `GoodMapping`) yields a table
equal to the original in key membership and handler-list order/membership
in all three mappings; serialization writes each section's keys sorted, and
the `Removed Associations` section appears exactly when that mapping is
non-empty. -/
theorem mimeapps_roundtrip (mimeOk installed : String → Bool) (apps : MimeApps)
    (hA : GoodMapping mimeOk installed apps.added_associations)
    (hR : GoodMapping mimeOk installed apps.removed_associations)
    (hD : GoodMapping mimeOk installed apps.default_apps) :
    (∀ k, alLookup k (MimeApps.readLines mimeOk installed
          (MimeApps.serializeLines apps)).added_associations =
        alLookup k apps.added_associations) ∧
    (∀ k, alLookup k (MimeApps.readLines mimeOk installed
          (MimeApps.serializeLines apps)).removed_associations =
        alLookup k apps.removed_associations) ∧
    (∀ k, alLookup k (MimeApps.readLines mimeOk installed
          (MimeApps.serializeLines apps)).default_apps =
        alLookup k apps.default_apps) ∧
    List.Sorted (· ≤ ·) ((sortByKey apps.added_associations).map Prod.fst) ∧
    List.Sorted (· ≤ ·) ((sortByKey apps.removed_associations).map Prod.fst) ∧
    List.Sorted (· ≤ ·) ((sortByKey apps.default_apps).map Prod.fst) ∧
    ("[Removed Associations]" ∈ MimeApps.serializeLines apps ↔
      ¬ apps.removed_associations = []) := by
  have hA' : ∀ p ∈ sortByKey apps.added_associations,
      mimeOk p.1 = true ∧ '=' ∉ p.1.data ∧ ¬ p.2 = [] ∧ p.2.Nodup ∧
        ∀ h ∈ p.2, installed h = true ∧ ¬ h = "" ∧ ';' ∉ h.data :=
    fun p hp => hA.2 p ((List.perm_insertionSort keyLe _).mem_iff.mp hp)
  have hR' : ∀ p ∈ sortByKey apps.removed_associations,
      mimeOk p.1 = true ∧ '=' ∉ p.1.data ∧ ¬ p.2 = [] ∧ p.2.Nodup ∧
        ∀ h ∈ p.2, installed h = true ∧ ¬ h = "" ∧ ';' ∉ h.data :=
    fun p hp => hR.2 p ((List.perm_insertionSort keyLe _).mem_iff.mp hp)
  have hD' : ∀ p ∈ sortByKey apps.default_apps,
      mimeOk p.1 = true ∧ '=' ∉ p.1.data ∧ ¬ p.2 = [] ∧ p.2.Nodup ∧
        ∀ h ∈ p.2, installed h = true ∧ ¬ h = "" ∧ ';' ∉ h.data :=
    fun p hp => hD.2 p ((List.perm_insertionSort keyLe _).mem_iff.mp hp)
  have hconf : ∃ R2 : List (String × List String),
      MimeApps.readLines mimeOk installed (MimeApps.serializeLines apps) =
        ⟨(sortByKey apps.added_associations).foldl
            (fun m p => alInsert p.1 p.2 m) [],
          R2,
          (sortByKey apps.default_apps).foldl
            (fun m p => alInsert p.1 p.2 m) []⟩ ∧
        ∀ k, alLookup k R2 = alLookup k apps.removed_associations := by
    by_cases hrem : apps.removed_associations = []
    · refine ⟨[], ?_, ?_⟩
      · rw [MimeApps.readLines, MimeApps.empty, MimeApps.serializeLines,
          if_pos hrem]
        rw [List.foldl_append, List.foldl_append, List.foldl_append,
          List.foldl_append]
        rw [foldl_added_header_chunk]
        rw [foldl_readLine_added_block mimeOk installed _ _ hA']
        dsimp only
        rw [List.foldl_nil, foldl_default_header_chunk]
        rw [foldl_readLine_default_block mimeOk installed _ _ hD']
      · intro k
        rw [hrem]
    · refine ⟨(sortByKey apps.removed_associations).foldl
        (fun m p => alInsert p.1 p.2 m) [], ?_, ?_⟩
      · rw [MimeApps.readLines, MimeApps.empty, MimeApps.serializeLines,
          if_neg hrem]
        rw [List.foldl_append, List.foldl_append, List.foldl_append,
          List.foldl_append, List.foldl_append]
        rw [foldl_added_header_chunk]
        rw [foldl_readLine_added_block mimeOk installed _ _ hA']
        dsimp only
        rw [foldl_removed_header_chunk]
        rw [foldl_readLine_removed_block mimeOk installed _ _ hR']
        dsimp only
        rw [foldl_default_header_chunk]
        rw [foldl_readLine_default_block mimeOk installed _ _ hD']
      · intro k
        exact alLookup_foldl_sorted _ hR.1 k
  obtain ⟨R2, hconfeq, hRlook⟩ := hconf
  refine ⟨?_, ?_, ?_, sortByKey_keys_sorted _, sortByKey_keys_sorted _,
    sortByKey_keys_sorted _, removed_header_mem_serialize apps⟩
  · intro k
    rw [hconfeq]
    exact alLookup_foldl_sorted _ hA.1 k
  · intro k
    rw [hconfeq]
    exact hRlook k
  · intro k
    rw [hconfeq]
    exact alLookup_foldl_sorted _ hD.1 k

theorem mimeapps_roundtrip_witness :
    GoodMapping mimeOkAll installedVlcMpv [("audio/flac", ["vlc.desktop"])] ∧
    GoodMapping mimeOkAll installedVlcMpv [("image/png", ["mpv.desktop"])] ∧
    GoodMapping mimeOkAll installedVlcMpv
      [("text/plain", ["vlc.desktop", "mpv.desktop"])] ∧
    alLookup "text/plain" (MimeApps.readLines mimeOkAll installedVlcMpv
        (MimeApps.serializeLines ⟨[("audio/flac", ["vlc.desktop"])],
          [("image/png", ["mpv.desktop"])],
          [("text/plain", ["vlc.desktop", "mpv.desktop"])]⟩)).default_apps =
      alLookup "text/plain"
        ([("text/plain", ["vlc.desktop", "mpv.desktop"])] :
          List (String × List String)) :=
  ⟨by decide, by decide, by decide,
    (mimeapps_roundtrip mimeOkAll installedVlcMpv
        ⟨[("audio/flac", ["vlc.desktop"])], [("image/png", ["mpv.desktop"])],
          [("text/plain", ["vlc.desktop", "mpv.desktop"])]⟩
        (by decide) (by decide) (by decide)).2.2.1 "text/plain"⟩
